import Mathlib

/-!
Verification of the arpc RPC client spine: a shallow embedding of the
client engine (client.h), the awaitable primitives (awaitable.h), the
execution context (context.h), and the sorted keyed map (flat_map),
with theorems settling the specification claims about them.

Machine integers are modelled as Nat with explicit reduction mod 2^32
where the source uses uint32.  Fallible paths return an Option ErrorKind
next to their result.  One-shot promises are modelled by emitting an
explicit resolution event at the moment the source resolves them.
-/

namespace Arpc

/-- Error kinds of arpc/errors.h (the closed set listed in the spec). -/
inductive ErrorKind
  | io_error
  | data_mismatch
  | deadline_exceeded
  | cancelled
  | try_again
  | not_connected
  | internal_error
deriving DecidableEq, Repr

/-- Message type tags of rpc_defs (message_defs.h). -/
inductive message_type
  | REQUEST
  | RESPONSE
  | CANCEL_REQUEST
deriving DecidableEq, Repr

/-- A resolution of a one-shot promise: either set_value with the payload
bytes, or set_exception with an error of the given kind. -/
inductive Resolution
  | value : String → Resolution
  | exc : ErrorKind → Resolution
deriving DecidableEq, Repr

/-- client_connection::pending_request: the per-request entry stored in
the pending map.  The promise side is represented by resolution events,
so only the optional absolute deadline (milliseconds) is state. -/
structure pending_request where
  deadline : Option Int
deriving DecidableEq, Repr

/-- The contents of pending_ (flat_map of request id to pending_request),
viewed extensionally as an association list. -/
abbrev pending_map_type := List (Nat × pending_request)

/-- Keys (request ids) currently present in the pending map. -/
def keys (m : pending_map_type) : List Nat := m.map Prod.fst

/-- Whether an optional absolute deadline is strictly in the past. -/
def deadline_past (now : Int) : Option Int → Bool
  | some d => decide (d < now)
  | none => false

/-- client_connection::gc: walk the pending map; every entry whose
deadline is strictly before now gets its promise failed with
deadline_exceeded and is erased; all other entries are kept.  Returns
the surviving map and the emitted resolutions in iteration order. -/
def gc (now : Int) : pending_map_type → pending_map_type × List (Nat × Resolution)
  | [] => ([], [])
  | e :: rest =>
    let r := gc now rest
    if deadline_past now e.2.deadline then
      (r.1, (e.1, Resolution.exc ErrorKind.deadline_exceeded) :: r.2)
    else
      (e :: r.1, r.2)

/-- client_connection::new_request_id: returns sequence_++ where
sequence_ is a uint32, so the returned value is the old counter and the
new counter is incremented mod 2^32. -/
def new_request_id (sequence : Nat) : Nat × Nat :=
  (sequence % 4294967296, (sequence + 1) % 4294967296)

/-- The request id returned by the (n+1)-th call to new_request_id when
the counter starts at s. -/
def request_id_stream (s : Nat) : Nat → Nat
  | 0 => (new_request_id s).1
  | n + 1 => request_id_stream (new_request_id s).2 n

/-- client_connection::abandon_request: find the id in the pending map;
if present, fail its promise with errors::cancelled and erase it;
otherwise do nothing. -/
def abandon_request (id : Nat) (pending : pending_map_type) :
    pending_map_type × List (Nat × Resolution) :=
  match pending.find? (fun e => e.1 == id) with
  | some _ =>
      (pending.eraseP (fun e => e.1 == id),
       [(id, Resolution.exc ErrorKind.cancelled)])
  | none => (pending, [])

/-- client_connection::set_response: find the id in the pending map; if
present, set_value the response payload on its promise and erase it;
otherwise do nothing (the response is silently discarded). -/
def set_response (id : Nat) (response : String) (pending : pending_map_type) :
    pending_map_type × List (Nat × Resolution) :=
  match pending.find? (fun e => e.1 == id) with
  | some _ =>
      (pending.eraseP (fun e => e.1 == id), [(id, Resolution.value response)])
  | none => (pending, [])

/-- client_connection::broadcast_exception: fail every pending promise
with the given exception kind and clear the map. -/
def broadcast_exception (k : ErrorKind) (pending : pending_map_type) :
    pending_map_type × List (Nat × Resolution) :=
  ([], pending.map (fun e => (e.1, Resolution.exc k)))

/-- The connection-facing state of the engine: the ready_ flag and
whether the reconnectable connection is currently connected. -/
structure conn_state where
  ready : Bool
  connected : Bool
deriving DecidableEq, Repr

/-- client_connection::send: under sending_mu, connect and write the
frame, then raise ready_; on an I/O error, drop ready_, disconnect, and
re-raise.  The parameter io_fail abstracts whether the underlying
channel write raises. -/
def send (st : conn_state) (io_fail : Bool) : conn_state × Option ErrorKind :=
  if io_fail then
    (conn_state.mk false false, some ErrorKind.io_error)
  else
    (conn_state.mk true true, none)

/-- A bounded queue (arpc queue) holding items of one type: maybe_put
fails with try_again when the queue already holds cap items. -/
structure bqueue (γ : Type) where
  cap : Nat
  items : List γ
deriving DecidableEq, Repr

/-- queue::maybe_put: enqueue when there is room, otherwise raise
try_again and leave the queue unchanged. -/
def maybe_put {γ : Type} (q : bqueue γ) (x : γ) : bqueue γ × Option ErrorKind :=
  if q.items.length < q.cap then
    (bqueue.mk q.cap (q.items ++ [x]), none)
  else
    (q, some ErrorKind.try_again)

/-- client_connection::send_request: register the pending entry for the
id (pending_ subscript then deadline assignment), kick the new-deadline
doorbell when the deadline is finite (try_again swallowed), then send
the frame; if send raises, abandon the request and re-raise the error.
Returns the connection state, the pending map, the doorbell queue, the
emitted resolutions, and the re-raised error if any. -/
def send_request (id : Nat) (dl : Option Int) (io_fail : Bool)
    (conn : conn_state) (pending : pending_map_type) (ndq : bqueue Unit) :
    conn_state × pending_map_type × bqueue Unit ×
      List (Nat × Resolution) × Option ErrorKind :=
  let pending1 : pending_map_type :=
    match pending.find? (fun e => e.1 == id) with
    | some _ => pending.map (fun e => if e.1 == id then (id, pending_request.mk dl) else e)
    | none => pending ++ [(id, pending_request.mk dl)]
  let ndq1 := if dl.isSome then (maybe_put ndq ()).1 else ndq
  match send conn io_fail with
  | (conn1, some err) =>
      let a := abandon_request id pending1
      (conn1, a.1, ndq1, a.2, some err)
  | (conn1, none) => (conn1, pending1, ndq1, [], none)

/-- client_connection::cancel_request: abandon the request locally, then
maybe_put its id on the cancelled_requests queue, swallowing
errors::try_again when the queue is full. -/
def cancel_request (id : Nat) (pending : pending_map_type) (q : bqueue Nat) :
    pending_map_type × List (Nat × Resolution) × bqueue Nat :=
  let a := abandon_request id pending
  (a.1, a.2, (maybe_put q id).1)

/-- A frame on the wire, reduced to its tag and request id. -/
structure frame where
  tag : message_type
  req_id : Nat
deriving DecidableEq, Repr

/-- handle_timeouts_and_cancellations, cancellation branch: for each id
popped from the cancelled_requests queue, encode a CANCEL_REQUEST frame
with that id and send it, ignoring send errors; the frames attempted
while draining the whole queue. -/
def cancel_frames_of_queue (q : bqueue Nat) : List frame :=
  q.items.map (fun id => frame.mk message_type.CANCEL_REQUEST id)

/-- remote_object::call when future::get raises errors::cancelled
because the calling context was cancelled (the future observes
cancellation per the spec's cancellation semantics): the catch block
calls cancel_request for the id and rethrows errors::cancelled to the
caller. -/
def call_on_cancelled (id : Nat) (pending : pending_map_type) (q : bqueue Nat) :
    pending_map_type × List (Nat × Resolution) × bqueue Nat × ErrorKind :=
  let c := cancel_request id pending q
  (c.1, c.2.1, c.2.2, ErrorKind.cancelled)

/-- client_connection::receive, per-frame step: decode the message type;
on RESPONSE decode the request id, strip the header bytes and hand the
remaining payload to set_response; any other tag raises data_mismatch. -/
def handle_frame (m : frame) (payload : String) (pending : pending_map_type) :
    pending_map_type × List (Nat × Resolution) × Option ErrorKind :=
  match m.tag with
  | message_type.RESPONSE =>
      let r := set_response m.req_id payload pending
      (r.1, r.2, none)
  | _ => (pending, [], some ErrorKind.data_mismatch)

/-- One resolving operation on the pending map: a matching response, a
garbage-collection pass at a given time, a local abandonment, or a
connection-wide exception broadcast. -/
inductive pending_op
  | response : Nat → String → pending_op
  | run_gc : Int → pending_op
  | abandon : Nat → pending_op
  | broadcast : ErrorKind → pending_op
deriving DecidableEq, Repr

/-- Apply one resolving operation to the pending map. -/
def apply_op : pending_op → pending_map_type → pending_map_type × List (Nat × Resolution)
  | pending_op.response id p, m => set_response id p m
  | pending_op.run_gc now, m => gc now m
  | pending_op.abandon id, m => abandon_request id m
  | pending_op.broadcast k, m => broadcast_exception k m

/-- Apply a sequence of resolving operations, concatenating the emitted
resolution events in order. -/
def run_ops : List pending_op → pending_map_type → pending_map_type × List (Nat × Resolution)
  | [], m => (m, [])
  | op :: rest, m =>
      let r := apply_op op m
      let rr := run_ops rest r.1
      (rr.1, r.2 ++ rr.2)

/-- An awaitable (awaitable.h), reduced to its suspension-condition
fields: the file descriptor (or -1), the write-direction flag, the
timeout in milliseconds (or -1 when not a timer), and the polling flag
(true models re-arming every firing, false a one-shot timer). -/
structure awaitable where
  fd : Int
  for_write : Bool
  timer_ms : Int
  for_polling : Bool
deriving DecidableEq, Repr

/-- arpc::timeout: a one-shot timeout awaitable firing after the given
duration in milliseconds (awaitable's duration constructor with
for_polling defaulted to false). -/
def timeout (d : Int) : awaitable :=
  awaitable.mk (-1) false d false

/-- arpc::deadline: computes the delta from now to the given time point
and constructs the awaitable from max(0, delta) through the same
duration constructor timeout uses. -/
def deadline (now when : Int) : awaitable :=
  awaitable.mk (-1) false (max 0 (when - now)) false

/-- A polymorphic context value (a shared dynamic_base_class), reduced
to its portable class name and its payload. -/
structure dynamic_value where
  class_name : String
  payload : String
deriving DecidableEq, Repr

/-- A single context node (context.h), reduced to the fields its
serialization and keyed-value lookup observe: the cancelled flag, the
optional absolute deadline in milliseconds, and the keyed data map from
portable class name to shared value, viewed as an association list. -/
structure context where
  cancelled_flag : Bool
  deadline_ : Option Int
  data_ : List (String × dynamic_value)
deriving DecidableEq, Repr

/-- Modelled from the spec: context.cpp is not under src/, so
context::deadline_left is taken from the spec's serialization contract
(the remaining duration until the deadline, when one is set). -/
def context.deadline_left (now : Int) (ctx : context) : Option Int :=
  ctx.deadline_.map (fun d => d - now)

/-- Modelled from the spec: context.cpp is not under src/, so
context::is_cancelled on a root node is the cancelled flag OR
deadline-in-the-past, per the spec's is_cancelled description. -/
def context.is_cancelled (now : Int) (ctx : context) : Bool :=
  ctx.cancelled_flag || deadline_past now ctx.deadline_

/-- Modelled from the spec: context.cpp is not under src/, so
context::set_timeout records the absolute time now + d, never extending
an already-set deadline, per the spec's set_deadline description. -/
def context.set_timeout (now : Int) (d : Int) (ctx : context) : context :=
  match ctx.deadline_ with
  | some d0 => context.mk ctx.cancelled_flag (some (min d0 (now + d))) ctx.data_
  | none => context.mk ctx.cancelled_flag (some (now + d)) ctx.data_

/-- Modelled from the spec: context.cpp is not under src/, so
context::cancel on a root node idempotently sets the cancelled flag. -/
def context.cancel (ctx : context) : context :=
  context.mk true ctx.deadline_ ctx.data_

/-- Modelled from the spec: context.cpp is not under src/; context::data
returns the list of shared values held in the keyed data map. -/
def context.data (ctx : context) : List dynamic_value :=
  ctx.data_.map Prod.snd

/-- Modelled from the spec: context.cpp is not under src/;
context::set_data installs the given values keyed by their portable
class names. -/
def context.set_data (vs : List dynamic_value) (ctx : context) : context :=
  context.mk ctx.cancelled_flag ctx.deadline_ (vs.map (fun v => (v.class_name, v)))

/-- context::save (context.h): writes deadline_left(), then data(), then
is_cancelled(). -/
def context.save (now : Int) (ctx : context) :
    Option Int × List dynamic_value × Bool :=
  (ctx.deadline_left now, ctx.data, ctx.is_cancelled now)

/-- context::load (context.h): reads the optional remaining duration,
the value list and the cancelled flag; applies set_timeout when the
duration is present, then set_data, then cancel when the flag is set. -/
def context.load (now : Int) (s : Option Int × List dynamic_value × Bool)
    (ctx : context) : context :=
  let ctx1 := match s.1 with
    | some d => ctx.set_timeout now d
    | none => ctx
  let ctx2 := ctx1.set_data s.2.1
  if s.2.2 then ctx2.cancel else ctx2

/-- A freshly constructed context on the receiving side: not cancelled,
no deadline, no keyed values. -/
def context.fresh : context :=
  context.mk false none []

/-- context::get (context.h): look up the portable class name of T in
the keyed data map; return the stored shared value when present, else
the default-constructed singleton instance of T.  The data map is
returned unchanged (the method is const). -/
def context.get (ctx : context) (name : String) (default_instance : dynamic_value) :
    dynamic_value × context :=
  match ctx.data_.find? (fun e => e.1 == name) with
  | some e => (e.2, ctx)
  | none => (default_instance, ctx)

namespace flat_map

/-!
Modelled from the spec: the flat_map implementation
(arpc/container/flat_map.h) is not under src/ (only its tests are), so
the sorted keyed map is modelled from the spec's words: a contiguous
array of pairs sorted by key, find and the bounds via binary search,
insert preserving key uniqueness, subscript returning the mapped value
or a default-constructed one.  The array is the list of entries; the
binary-search operations are written as the structural recursions they
compute on a sorted array.
-/

variable {α β : Type} [LinearOrder α]

/-- The index of the first entry whose key is not less than k (what
binary search returns for lower_bound on the sorted array). -/
def lower_bound : List (α × β) → α → Nat
  | [], _ => 0
  | e :: rest, k => if e.1 < k then lower_bound rest k + 1 else 0

/-- The index of the first entry whose key is greater than k (what
binary search returns for upper_bound on the sorted array). -/
def upper_bound : List (α × β) → α → Nat
  | [], _ => 0
  | e :: rest, k => if e.1 ≤ k then upper_bound rest k + 1 else 0

/-- equal_range: the pair of lower_bound and upper_bound indices. -/
def equal_range (l : List (α × β)) (k : α) : Nat × Nat :=
  (lower_bound l k, upper_bound l k)

/-- find: binary-search lookup of the entry with key k on the sorted
array; none when the key is absent. -/
def find : List (α × β) → α → Option (α × β)
  | [], _ => none
  | e :: rest, k =>
      if e.1 < k then find rest k
      else if e.1 = k then some e else none

/-- insert: place the pair at its sorted position when the key is
absent and report true; when the key is already present leave the array
unchanged and report false. -/
def insert : List (α × β) → α × β → List (α × β) × Bool
  | [], kv => ([kv], true)
  | e :: rest, kv =>
      if kv.1 < e.1 then (kv :: e :: rest, true)
      else if e.1 = kv.1 then (e :: rest, false)
      else (e :: (insert rest kv).1, (insert rest kv).2)

/-- Subscript: the mapped value for a present key, a default-constructed
value for an absent key. -/
def getD [Inhabited β] (l : List (α × β)) (k : α) : β :=
  match find l k with
  | some e => e.2
  | none => default

/-- The map built by a sequence of insertions starting from empty. -/
def of_list (ops : List (α × β)) : List (α × β) :=
  ops.foldl (fun m kv => (insert m kv).1) []

/-- The sortedness invariant: keys strictly increase along the array. -/
def sorted_keys (l : List (α × β)) : Prop :=
  l.Pairwise (fun a b => a.1 < b.1)

/-- Reference sorted-array specification of lower_bound: the number of
entries with key strictly below k. -/
def lower_bound_ref (l : List (α × β)) (k : α) : Nat :=
  l.countP (fun e => decide (e.1 < k))

/-- Reference sorted-array specification of upper_bound: the number of
entries with key at most k. -/
def upper_bound_ref (l : List (α × β)) (k : α) : Nat :=
  l.countP (fun e => decide (e.1 ≤ k))

end flat_map

/-! Helper lemmas about association lists with distinct keys. -/

theorem find?_eq_of_mem_nodup {α β : Type} [BEq α] [LawfulBEq α]
    {l : List (α × β)} {k : α} {v : β}
    (h : (l.map Prod.fst).Nodup) (hm : (k, v) ∈ l) :
    l.find? (fun e => e.1 == k) = some (k, v) := by
  induction l with
  | nil => cases hm
  | cons e rest ih =>
    simp only [List.map_cons, List.nodup_cons] at h
    rcases List.mem_cons.mp hm with rfl | hm'
    · exact List.find?_cons_of_pos _ (by simp)
    · have hk : ¬ (e.1 == k) = true := by
        intro hek
        exact h.1 (by
          have : e.1 = k := by simpa using hek
          subst this
          exact List.mem_map.mpr ⟨(e.1, v), hm', rfl⟩)
      have hstep : List.find? (fun x => x.1 == k) (e :: rest) =
          List.find? (fun x => x.1 == k) rest := List.find?_cons_of_neg _ hk
      rw [hstep]
      exact ih h.2 hm'

theorem find?_eq_none_of_not_mem {α β : Type} [BEq α] [LawfulBEq α]
    {l : List (α × β)} {k : α} (h : k ∉ l.map Prod.fst) :
    l.find? (fun e => e.1 == k) = none := by
  rw [List.find?_eq_none]
  intro e he hek
  exact h (List.mem_map.mpr ⟨e, he, by simpa using hek⟩)

theorem eraseP_key_eq_filter {α β : Type} [BEq α] [LawfulBEq α]
    {l : List (α × β)} (h : (l.map Prod.fst).Nodup) (k : α) :
    l.eraseP (fun e => e.1 == k) = l.filter (fun e => !(e.1 == k)) := by
  induction l with
  | nil => rfl
  | cons e rest ih =>
    simp only [List.map_cons, List.nodup_cons] at h
    by_cases hek : (e.1 == k) = true
    · have hk : e.1 = k := by simpa using hek
      have hstep : List.eraseP (fun x => x.1 == k) (e :: rest) = rest :=
        List.eraseP_cons_of_pos hek
      rw [hstep, List.filter_cons_of_neg (by simp [hek])]
      rw [List.filter_eq_self.mpr]
      intro x hx
      simp only [Bool.not_eq_true', beq_eq_false_iff_ne, ne_eq]
      intro hxk
      exact h.1 (by
        subst hk; rw [← hxk]
        exact List.mem_map.mpr ⟨x, hx, rfl⟩)
    · have hstep : List.eraseP (fun x => x.1 == k) (e :: rest) =
          e :: List.eraseP (fun x => x.1 == k) rest :=
        List.eraseP_cons_of_neg (by simpa using hek)
      rw [hstep, List.filter_cons_of_pos (by simp [hek]), ih h.2]

theorem eq_of_mem_of_keys_nodup {α β : Type} {l : List (α × β)}
    (h : (l.map Prod.fst).Nodup) {e1 e2 : α × β}
    (h1 : e1 ∈ l) (h2 : e2 ∈ l) (hk : e1.1 = e2.1) : e1 = e2 := by
  induction l with
  | nil => cases h1
  | cons e rest ih =>
    simp only [List.map_cons, List.nodup_cons] at h
    rcases List.mem_cons.mp h1 with rfl | h1' <;>
      rcases List.mem_cons.mp h2 with rfl | h2'
    · rfl
    · exact absurd (hk ▸ List.mem_map.mpr ⟨e2, h2', rfl⟩) h.1
    · exact absurd (hk ▸ List.mem_map.mpr ⟨e1, h1', rfl⟩) h.1
    · exact ih h.2 h1' h2'

/-- gc computed as a filter of the pending map: survivors are the
unexpired entries, resolutions come from the expired ones. -/
theorem gc_eq_filter (now : Int) (pending : pending_map_type) :
    gc now pending =
      (pending.filter (fun e => !deadline_past now e.2.deadline),
       (pending.filter (fun e => deadline_past now e.2.deadline)).map
         (fun e => (e.1, Resolution.exc ErrorKind.deadline_exceeded))) := by
  induction pending with
  | nil => rfl
  | cons e rest ih =>
    simp only [gc, ih]
    cases h : deadline_past now e.2.deadline <;> simp [h, List.filter_cons]

/-- Claim C4: one run of gc fails exactly those pending entries whose
deadline is strictly in the past, resolving each with a
deadline_exceeded exception, and removes exactly those entries; every
entry without a deadline or whose deadline is not yet past stays in the
map and receives no resolution. -/
theorem gc_expires_exactly_past_deadlines (now : Int) (pending : pending_map_type) :
    (gc now pending).1 = pending.filter (fun e => !deadline_past now e.2.deadline) ∧
    (gc now pending).2 =
      (pending.filter (fun e => deadline_past now e.2.deadline)).map
        (fun e => (e.1, Resolution.exc ErrorKind.deadline_exceeded)) ∧
    (∀ e : Nat × pending_request,
      e ∈ (gc now pending).1 ↔ e ∈ pending ∧ deadline_past now e.2.deadline = false) := by
  refine ⟨(congrArg Prod.fst (gc_eq_filter now pending)),
    (congrArg Prod.snd (gc_eq_filter now pending)), fun e => ?_⟩
  rw [congrArg Prod.fst (gc_eq_filter now pending)]
  simp [List.mem_filter]

/-- Claim C7: deadline(t) builds a one-shot timeout awaitable whose
duration is max(0, t - now) milliseconds: it equals timeout applied to
that value, is never negative, is not a polling awaitable, and is zero
when the time point is already past. -/
theorem deadline_delegates_to_timeout (now when : Int) :
    deadline now when = timeout (max 0 (when - now)) ∧
    0 ≤ (deadline now when).timer_ms ∧
    (deadline now when).for_polling = false ∧
    (when ≤ now → (deadline now when).timer_ms = 0) := by
  refine ⟨rfl, le_max_left _ _, rfl, fun h => ?_⟩
  simp only [deadline]
  omega

theorem deadline_delegates_to_timeout_witness :
    deadline 10 3 = timeout (max 0 (3 - 10)) ∧
    0 ≤ (deadline 10 3).timer_ms ∧
    (deadline 10 3).for_polling = false ∧
    (deadline 10 3).timer_ms = 0 := by
  have h := deadline_delegates_to_timeout 10 3
  exact ⟨h.1, h.2.1, h.2.2.1, h.2.2.2 (by decide)⟩

/-- The id stream is the start counter shifted by the call index, mod 2^32. -/
theorem request_id_stream_eq (s : Nat) (n : Nat) :
    request_id_stream s n = (s + n) % 4294967296 := by
  induction n generalizing s with
  | zero => rfl
  | succ n ih =>
    show request_id_stream ((s + 1) % 4294967296) n = (s + (n + 1)) % 4294967296
    rw [ih, Nat.mod_add_mod]
    ring_nf

/-- Claim C2 (amended): ids are allocated as consecutive values of a
32-bit counter: while no wraparound occurs the sequence is strictly
increasing, and any two ids allocated fewer than 2^32 calls apart are
distinct. -/
theorem request_id_allocation_spec (s : Nat) :
    (∀ n, request_id_stream s n = (s + n) % 4294967296) ∧
    (∀ n, s + n + 1 < 4294967296 →
      request_id_stream s n < request_id_stream s (n + 1)) ∧
    (∀ m n, m < n → n - m < 4294967296 →
      request_id_stream s m ≠ request_id_stream s n) := by
  refine ⟨request_id_stream_eq s, fun n hn => ?_, fun m n hmn hlt heq => ?_⟩
  · rw [request_id_stream_eq, request_id_stream_eq,
      Nat.mod_eq_of_lt (by omega), Nat.mod_eq_of_lt (by omega)]
    omega
  · rw [request_id_stream_eq, request_id_stream_eq] at heq
    have hdvd : (4294967296 : Nat) ∣ (s + n) - (s + m) :=
      (Nat.modEq_iff_dvd' (by omega)).mp heq
    have hpos : 0 < (s + n) - (s + m) := by omega
    have := Nat.le_of_dvd hpos hdvd
    omega

theorem request_id_allocation_spec_witness :
    request_id_stream 0 3 = (0 + 3) % 4294967296 ∧
    request_id_stream 0 3 < request_id_stream 0 (3 + 1) ∧
    request_id_stream 0 1 ≠ request_id_stream 0 2 := by
  have h := request_id_allocation_spec 0
  exact ⟨h.1 3, h.2.1 3 (by decide), h.2.2 1 2 (by decide) (by decide)⟩

/-- Claim C2, counterexample: at the 2^32-nd allocation the uint32
counter wraps, so the id sequence of a connection is not strictly
increasing over its whole lifetime. -/
theorem request_id_wraparound_counterexample :
    request_id_stream 4294967295 0 = 4294967295 ∧
    request_id_stream 4294967295 1 = 0 ∧
    ¬ request_id_stream 4294967295 0 < request_id_stream 4294967295 1 := by
  refine ⟨?_, ?_, ?_⟩ <;> decide

/-- Claim C5: a RESPONSE frame whose request id has no pending entry is
silently discarded (map unchanged, no resolution, no error); a matching
id delivers the remaining payload bytes to that entry's promise and
removes exactly that entry, leaving all others in place. -/
theorem handle_response_frame_spec (id : Nat) (payload : String)
    (pending : pending_map_type) (h : (keys pending).Nodup) :
    (id ∉ keys pending →
      handle_frame (frame.mk message_type.RESPONSE id) payload pending =
        (pending, [], none)) ∧
    (id ∈ keys pending →
      handle_frame (frame.mk message_type.RESPONSE id) payload pending =
        (pending.filter (fun e => !(e.1 == id)),
         [(id, Resolution.value payload)], none)) := by
  constructor
  · intro hid
    simp only [handle_frame, set_response]
    rw [find?_eq_none_of_not_mem (by simpa [keys] using hid)]
  · intro hid
    simp only [keys] at hid h
    obtain ⟨e, he, hek⟩ := List.mem_map.mp hid
    have hm : (id, e.2) ∈ pending := by
      obtain ⟨k, v⟩ := e
      cases hek
      exact he
    simp only [handle_frame, set_response]
    rw [find?_eq_of_mem_nodup h hm, eraseP_key_eq_filter h id]

theorem handle_response_frame_spec_witness :
    handle_frame (frame.mk message_type.RESPONSE 9) "abc"
        [(1, pending_request.mk none)] =
      ([(1, pending_request.mk none)], [], none) ∧
    handle_frame (frame.mk message_type.RESPONSE 1) "abc"
        [(1, pending_request.mk none), (2, pending_request.mk (some 5))] =
      ([(2, pending_request.mk (some 5))], [(1, Resolution.value "abc")], none) := by
  have h1 := handle_response_frame_spec 9 "abc" [(1, pending_request.mk none)]
    (by decide)
  have h2 := handle_response_frame_spec 1 "abc"
    [(1, pending_request.mk none), (2, pending_request.mk (some 5))] (by decide)
  refine ⟨h1.1 (by decide), ?_⟩
  rw [h2.2 (by decide)]
  decide

/-- Claim C8: context::get returns the stored shared value when the
portable type name is present in the keyed data map, and otherwise the
default-constructed singleton instance; in both cases the context (in
particular its data map) is returned unchanged. -/
theorem context_get_spec (ctx : context) (nm : String) (d : dynamic_value)
    (h : (ctx.data_.map Prod.fst).Nodup) :
    (∀ v, (nm, v) ∈ ctx.data_ → context.get ctx nm d = (v, ctx)) ∧
    (nm ∉ ctx.data_.map Prod.fst → context.get ctx nm d = (d, ctx)) := by
  constructor
  · intro v hv
    simp only [context.get]
    rw [find?_eq_of_mem_nodup h hv]
  · intro hn
    simp only [context.get]
    rw [find?_eq_none_of_not_mem hn]

theorem context_get_spec_witness :
    context.get
        (context.mk false none [("T", dynamic_value.mk "T" "x")]) "T"
        (dynamic_value.mk "T" "") =
      (dynamic_value.mk "T" "x",
       context.mk false none [("T", dynamic_value.mk "T" "x")]) ∧
    context.get
        (context.mk false none [("T", dynamic_value.mk "T" "x")]) "U"
        (dynamic_value.mk "U" "") =
      (dynamic_value.mk "U" "",
       context.mk false none [("T", dynamic_value.mk "T" "x")]) := by
  have h := context_get_spec
    (context.mk false none [("T", dynamic_value.mk "T" "x")]) "T"
    (dynamic_value.mk "T" "") (by decide)
  have h2 := context_get_spec
    (context.mk false none [("T", dynamic_value.mk "T" "x")]) "U"
    (dynamic_value.mk "U" "") (by decide)
  exact ⟨h.1 (dynamic_value.mk "T" "x") (by decide), h2.2 (by decide)⟩

/-- Loading into a fresh context reconstructs the absolute deadline by
adding the transported remaining duration to the local clock. -/
theorem load_deadline (now : Int) (s : Option Int × List dynamic_value × Bool) :
    (context.load now s context.fresh).deadline_ = s.1.map (fun d => now + d) := by
  rcases s with ⟨dl, vals, cf⟩
  cases dl <;> cases cf <;> rfl

theorem load_data (now : Int) (s : Option Int × List dynamic_value × Bool) :
    (context.load now s context.fresh).data_ =
      s.2.1.map (fun v => (v.class_name, v)) := by
  rcases s with ⟨dl, vals, cf⟩
  cases dl <;> cases cf <;> rfl

theorem load_cancelled_flag (now : Int) (s : Option Int × List dynamic_value × Bool) :
    (context.load now s context.fresh).cancelled_flag = s.2.2 := by
  rcases s with ⟨dl, vals, cf⟩
  cases dl <;> cases cf <;> rfl

/-- Claim C6: serializing a context writes exactly the triple
(optional remaining duration until the deadline, list of keyed values,
cancelled flag), and deserializing that triple into a fresh context at
the same time yields a context with the same remaining duration, the
same values, and the same cancellation state. -/
theorem context_save_load_round_trip (now : Int) (ctx : context) :
    context.save now ctx =
      (ctx.deadline_left now, ctx.data, ctx.is_cancelled now) ∧
    (context.load now (context.save now ctx) context.fresh).deadline_left now =
      ctx.deadline_left now ∧
    (context.load now (context.save now ctx) context.fresh).data = ctx.data ∧
    (context.load now (context.save now ctx) context.fresh).is_cancelled now =
      ctx.is_cancelled now := by
  refine ⟨rfl, ?_, ?_, ?_⟩
  · simp only [context.deadline_left, load_deadline, context.save, Option.map_map]
    cases h : ctx.deadline_ with
    | none => rfl
    | some d0 =>
      simp only [Option.map_some', Function.comp_apply]
      congr 1
      omega
  · simp only [context.data, load_data, context.save, List.map_map,
      Function.comp_def]
  · simp only [context.is_cancelled, load_cancelled_flag, load_deadline,
      context.save, context.deadline_left, Option.map_map]
    cases hdl : ctx.deadline_ with
    | none => simp [deadline_past]
    | some d0 =>
      have hpast : deadline_past now
            (Option.map ((fun d => now + d) ∘ fun d => d - now) (some d0)) =
          deadline_past now (some d0) := by
        simp only [Option.map_some', Function.comp_apply, deadline_past]
        exact decide_eq_decide.mpr (by omega)
      rw [hpast]
      cases ctx.cancelled_flag <;> cases h2 : deadline_past now (some d0) <;> simp

/-- Claim C1 (amended): when send raises an I/O error, send_request
drops the ready flag and disconnects, resolves the originating request's
promise with a cancelled-kind exception (abandon_request raises
errors::cancelled), re-raises the I/O error to the caller, and leaves
every other pending entry untouched: the pending map returns to exactly
what it was before the call registered the request. -/
theorem send_request_io_error_spec (id : Nat) (dl : Option Int)
    (conn : conn_state) (pending : pending_map_type) (ndq : bqueue Unit)
    (h : id ∉ keys pending) :
    (send_request id dl true conn pending ndq).1 = conn_state.mk false false ∧
    (send_request id dl true conn pending ndq).2.1 = pending ∧
    (send_request id dl true conn pending ndq).2.2.2.1 =
      [(id, Resolution.exc ErrorKind.cancelled)] ∧
    (send_request id dl true conn pending ndq).2.2.2.2 = some ErrorKind.io_error := by
  have hfind : pending.find? (fun e => e.1 == id) = none :=
    find?_eq_none_of_not_mem (by simpa [keys] using h)
  have hfind1 : (pending ++ [(id, pending_request.mk dl)]).find?
      (fun e => e.1 == id) = some (id, pending_request.mk dl) := by
    rw [List.find?_append, hfind]
    simp
  have herase : (pending ++ [(id, pending_request.mk dl)]).eraseP
      (fun e => e.1 == id) = pending := by
    rw [List.eraseP_append_right _ (by
      intro b hb hbid
      exact h (by
        simp only [keys]
        have : b.1 = id := by simpa using hbid
        exact this ▸ List.mem_map.mpr ⟨b, hb, rfl⟩))]
    simp [List.eraseP]
  simp only [send_request, hfind, send, if_pos, abandon_request, hfind1, herase]
  simp

theorem send_request_io_error_spec_witness :
    (send_request 7 (some 4) true (conn_state.mk true true)
        [(1, pending_request.mk none)] (bqueue.mk 2 [])).1 =
      conn_state.mk false false ∧
    (send_request 7 (some 4) true (conn_state.mk true true)
        [(1, pending_request.mk none)] (bqueue.mk 2 [])).2.1 =
      [(1, pending_request.mk none)] ∧
    (send_request 7 (some 4) true (conn_state.mk true true)
        [(1, pending_request.mk none)] (bqueue.mk 2 [])).2.2.2.1 =
      [(7, Resolution.exc ErrorKind.cancelled)] ∧
    (send_request 7 (some 4) true (conn_state.mk true true)
        [(1, pending_request.mk none)] (bqueue.mk 2 [])).2.2.2.2 =
      some ErrorKind.io_error :=
  send_request_io_error_spec 7 (some 4) (conn_state.mk true true)
    [(1, pending_request.mk none)] (bqueue.mk 2 []) (by decide)

/-- Claim C1, counterexample: on a send I/O error the abandoned
request's promise is resolved with a cancelled-kind exception, not an
io_error-kind one as the claim states. -/
theorem send_request_io_error_kind_counterexample :
    (send_request 0 none true (conn_state.mk true true) []
        (bqueue.mk 1 [])).2.2.2.1 =
      [(0, Resolution.exc ErrorKind.cancelled)] ∧
    Resolution.exc ErrorKind.cancelled ≠ Resolution.exc ErrorKind.io_error := by
  exact ⟨rfl, by decide⟩

/-- Claim C3 (amended): when the calling context is cancelled while a
call is in flight, the caller observes a cancelled-kind error, the
pending entry (when still present) has its promise resolved with
cancelled, and the engine emits at most one CANCEL_REQUEST frame for
the id: exactly one when the cancelled-requests queue has room, none
when the non-blocking enqueue fails with try_again (which is
swallowed); a failure while sending the frame itself is also
swallowed. -/
theorem cancelled_call_spec (id : Nat) (pending : pending_map_type)
    (q : bqueue Nat) (hq : id ∉ q.items) :
    (call_on_cancelled id pending q).2.2.2 = ErrorKind.cancelled ∧
    (id ∈ keys pending →
      (call_on_cancelled id pending q).2.1 =
        [(id, Resolution.exc ErrorKind.cancelled)]) ∧
    (id ∉ keys pending → (call_on_cancelled id pending q).2.1 = []) ∧
    ((cancel_frames_of_queue (call_on_cancelled id pending q).2.2.1).filter
        (fun f => f.req_id == id)).length =
      (if q.items.length < q.cap then 1 else 0) := by
  refine ⟨rfl, ?_, ?_, ?_⟩
  · intro hid
    simp only [keys] at hid
    obtain ⟨e, he, hek⟩ := List.mem_map.mp hid
    have hm : (id, e.2) ∈ pending := by
      obtain ⟨k, v⟩ := e
      cases hek
      exact he
    have hfind : pending.find? (fun x => x.1 == id) ≠ none := by
      intro hnone
      rw [List.find?_eq_none] at hnone
      exact hnone (id, e.2) hm (by simp)
    simp only [call_on_cancelled, cancel_request, abandon_request]
    cases hf : pending.find? (fun x => x.1 == id) with
    | none => exact absurd hf hfind
    | some e' => rfl
  · intro hid
    have hfind : pending.find? (fun x => x.1 == id) = none :=
      find?_eq_none_of_not_mem (by simpa [keys] using hid)
    simp only [call_on_cancelled, cancel_request, abandon_request, hfind]
  · simp only [call_on_cancelled, cancel_request, cancel_frames_of_queue,
      maybe_put]
    by_cases hroom : q.items.length < q.cap
    · rw [if_pos hroom, if_pos hroom]
      simp only [List.map_append, List.filter_append, List.length_append]
      have hzero : ((q.items.map (fun i => frame.mk message_type.CANCEL_REQUEST i)).filter
          (fun f => f.req_id == id)) = [] := by
        rw [List.filter_eq_nil_iff]
        intro f hf
        obtain ⟨i, hi, rfl⟩ := List.mem_map.mp hf
        simp only [beq_iff_eq]
        intro hiq
        exact hq (hiq ▸ hi)
      rw [hzero]
      simp
    · rw [if_neg hroom, if_neg hroom]
      have hzero : ((q.items.map (fun i => frame.mk message_type.CANCEL_REQUEST i)).filter
          (fun f => f.req_id == id)) = [] := by
        rw [List.filter_eq_nil_iff]
        intro f hf
        obtain ⟨i, hi, rfl⟩ := List.mem_map.mp hf
        simp only [beq_iff_eq]
        intro hiq
        exact hq (hiq ▸ hi)
      rw [hzero]
      rfl

theorem cancelled_call_spec_witness :
    (call_on_cancelled 5 [(5, pending_request.mk none)]
        (bqueue.mk 4 [7])).2.2.2 = ErrorKind.cancelled ∧
    (call_on_cancelled 5 [(5, pending_request.mk none)]
        (bqueue.mk 4 [7])).2.1 = [(5, Resolution.exc ErrorKind.cancelled)] ∧
    ((cancel_frames_of_queue (call_on_cancelled 5 [(5, pending_request.mk none)]
        (bqueue.mk 4 [7])).2.2.1).filter (fun f => f.req_id == 5)).length =
      (if ([7] : List Nat).length < 4 then 1 else 0) := by
  have h := cancelled_call_spec 5 [(5, pending_request.mk none)]
    (bqueue.mk 4 [7]) (by decide)
  exact ⟨h.1, h.2.1 (by decide), h.2.2.2⟩

/-- Claim C3, counterexample: when the cancelled_requests queue is full
the enqueue fails with try_again and is swallowed, so no CANCEL_REQUEST
frame at all is emitted for the cancelled call: the frame count is 0,
not exactly 1. -/
theorem cancel_frame_queue_full_counterexample :
    ((cancel_frames_of_queue (call_on_cancelled 5 [(5, pending_request.mk none)]
        (bqueue.mk 1 [7])).2.2.1).filter (fun f => f.req_id == 5)).length = 0 ∧
    (0 : Nat) ≠ 1 := by
  refine ⟨?_, by decide⟩
  decide

/-! Helper lemmas for the exactly-once resolution argument. -/

/-- Every resolving operation only removes entries: the surviving
entries are a sublist of the previous map. -/
theorem apply_op_sublist (op : pending_op) (m : pending_map_type) :
    (apply_op op m).1.Sublist m := by
  cases op with
  | response id p =>
    simp only [apply_op, set_response]
    cases hf : m.find? (fun e => e.1 == id) with
    | none => exact List.Sublist.refl m
    | some e => exact List.eraseP_sublist m
  | run_gc now =>
    have hfst : (apply_op (pending_op.run_gc now) m).1 =
        m.filter (fun e => !deadline_past now e.2.deadline) :=
      congrArg Prod.fst (gc_eq_filter now m)
    rw [hfst]
    exact List.filter_sublist m
  | abandon id =>
    simp only [apply_op, abandon_request]
    cases hf : m.find? (fun e => e.1 == id) with
    | none => exact List.Sublist.refl m
    | some e => exact List.eraseP_sublist m
  | broadcast k => exact List.nil_sublist m

theorem keys_apply_op_sublist (op : pending_op) (m : pending_map_type) :
    (keys (apply_op op m).1).Sublist (keys m) :=
  (apply_op_sublist op m).map Prod.fst

/-- Every resolution emitted by an operation names an id that was
present in the map beforehand. -/
theorem apply_op_res_ids_subset (op : pending_op) (m : pending_map_type) :
    ∀ r ∈ (apply_op op m).2, r.1 ∈ keys m := by
  cases op with
  | response id p =>
    simp only [apply_op, set_response]
    cases hf : m.find? (fun e => e.1 == id) with
    | none => intro r hr; cases hr
    | some e =>
      intro r hr
      have he := List.mem_of_find?_eq_some hf
      have hid : e.1 = id := by simpa using List.find?_some hf
      rcases List.mem_singleton.mp hr with rfl
      exact List.mem_map.mpr ⟨e, he, hid⟩
  | run_gc now =>
    intro r hr
    have hsnd : (apply_op (pending_op.run_gc now) m).2 =
        (m.filter (fun e => deadline_past now e.2.deadline)).map
          (fun e => (e.1, Resolution.exc ErrorKind.deadline_exceeded)) :=
      congrArg Prod.snd (gc_eq_filter now m)
    rw [hsnd] at hr
    obtain ⟨e, he, rfl⟩ := List.mem_map.mp hr
    exact List.mem_map.mpr ⟨e, (List.mem_filter.mp he).1, rfl⟩
  | abandon id =>
    simp only [apply_op, abandon_request]
    cases hf : m.find? (fun e => e.1 == id) with
    | none => intro r hr; cases hr
    | some e =>
      intro r hr
      have he := List.mem_of_find?_eq_some hf
      have hid : e.1 = id := by simpa using List.find?_some hf
      rcases List.mem_singleton.mp hr with rfl
      exact List.mem_map.mpr ⟨e, he, hid⟩
  | broadcast k =>
    intro r hr
    obtain ⟨e, he, rfl⟩ := List.mem_map.mp hr
    exact List.mem_map.mpr ⟨e, he, rfl⟩

/-- When the map's keys are distinct, every id resolved by an operation
is gone from the surviving map: resolution and removal happen in the
same atomic step. -/
theorem apply_op_res_removed (op : pending_op) (m : pending_map_type)
    (h : (keys m).Nodup) :
    ∀ r ∈ (apply_op op m).2, r.1 ∉ keys (apply_op op m).1 := by
  cases op with
  | response id p =>
    simp only [apply_op, set_response]
    cases hf : m.find? (fun e => e.1 == id) with
    | none => intro r hr; cases hr
    | some e =>
      intro r hr
      rcases List.mem_singleton.mp hr with rfl
      rw [eraseP_key_eq_filter h id]
      intro hmem
      obtain ⟨e2, he2, hk2⟩ := List.mem_map.mp hmem
      have := (List.mem_filter.mp he2).2
      rw [hk2] at this
      simp at this
  | run_gc now =>
    intro r hr
    have hfst : (apply_op (pending_op.run_gc now) m).1 =
        m.filter (fun e => !deadline_past now e.2.deadline) :=
      congrArg Prod.fst (gc_eq_filter now m)
    have hsnd : (apply_op (pending_op.run_gc now) m).2 =
        (m.filter (fun e => deadline_past now e.2.deadline)).map
          (fun e => (e.1, Resolution.exc ErrorKind.deadline_exceeded)) :=
      congrArg Prod.snd (gc_eq_filter now m)
    rw [hsnd] at hr
    rw [hfst]
    obtain ⟨e, he, rfl⟩ := List.mem_map.mp hr
    obtain ⟨hem, hexp⟩ := List.mem_filter.mp he
    intro hmem
    obtain ⟨e2, he2, hk2⟩ := List.mem_map.mp hmem
    obtain ⟨hem2, hunexp⟩ := List.mem_filter.mp he2
    have : e2 = e := eq_of_mem_of_keys_nodup h hem2 hem hk2
    subst this
    rw [hexp] at hunexp
    cases hunexp
  | abandon id =>
    simp only [apply_op, abandon_request]
    cases hf : m.find? (fun e => e.1 == id) with
    | none => intro r hr; cases hr
    | some e =>
      intro r hr
      rcases List.mem_singleton.mp hr with rfl
      rw [eraseP_key_eq_filter h id]
      intro hmem
      obtain ⟨e2, he2, hk2⟩ := List.mem_map.mp hmem
      have := (List.mem_filter.mp he2).2
      rw [hk2] at this
      simp at this
  | broadcast k =>
    intro r hr hmem
    cases hmem

/-- When the map's keys are distinct, one operation never resolves the
same id twice. -/
theorem apply_op_res_ids_nodup (op : pending_op) (m : pending_map_type)
    (h : (keys m).Nodup) :
    ((apply_op op m).2.map Prod.fst).Nodup := by
  cases op with
  | response id p =>
    simp only [apply_op, set_response]
    cases hf : m.find? (fun e => e.1 == id) with
    | none => exact List.nodup_nil
    | some e => simp
  | run_gc now =>
    have hsnd : (apply_op (pending_op.run_gc now) m).2 =
        (m.filter (fun e => deadline_past now e.2.deadline)).map
          (fun e => (e.1, Resolution.exc ErrorKind.deadline_exceeded)) :=
      congrArg Prod.snd (gc_eq_filter now m)
    rw [hsnd, List.map_map]
    have : (Prod.fst ∘ fun e : Nat × pending_request =>
        (e.1, Resolution.exc ErrorKind.deadline_exceeded)) = Prod.fst := rfl
    rw [this]
    exact List.Nodup.sublist ((List.filter_sublist m).map Prod.fst) h
  | abandon id =>
    simp only [apply_op, abandon_request]
    cases hf : m.find? (fun e => e.1 == id) with
    | none => exact List.nodup_nil
    | some e => simp
  | broadcast k =>
    simp only [apply_op, broadcast_exception, List.map_map]
    have : (Prod.fst ∘ fun e : Nat × pending_request =>
        (e.1, Resolution.exc k)) = Prod.fst := rfl
    rw [this]
    exact h

theorem apply_op_keys_nodup (op : pending_op) (m : pending_map_type)
    (h : (keys m).Nodup) : (keys (apply_op op m).1).Nodup :=
  List.Nodup.sublist (keys_apply_op_sublist op m) h

/-- Across a run of operations, every resolved id was a key of the
initial map. -/
theorem run_ops_res_ids_subset (ops : List pending_op) :
    ∀ m : pending_map_type, ∀ r ∈ (run_ops ops m).2, r.1 ∈ keys m := by
  induction ops with
  | nil => intro m r hr; cases hr
  | cons op rest ih =>
    intro m r hr
    simp only [run_ops] at hr
    rcases List.mem_append.mp hr with h1 | h2
    · exact apply_op_res_ids_subset op m r h1
    · exact (keys_apply_op_sublist op m).subset (ih (apply_op op m).1 r h2)

/-- Across a run of operations on a map with distinct keys, the trace
of resolved ids has no duplicate. -/
theorem run_ops_trace_nodup (ops : List pending_op) :
    ∀ m : pending_map_type, (keys m).Nodup →
      (((run_ops ops m).2).map Prod.fst).Nodup := by
  induction ops with
  | nil => intro m h; exact List.nodup_nil
  | cons op rest ih =>
    intro m h
    simp only [run_ops, List.map_append]
    rw [List.nodup_append]
    refine ⟨apply_op_res_ids_nodup op m h, ih _ (apply_op_keys_nodup op m h),
      fun a ha hb => ?_⟩
    obtain ⟨r, hr, rfl⟩ := List.mem_map.mp ha
    obtain ⟨r2, hr2, heq⟩ := List.mem_map.mp hb
    have hmem : r2.1 ∈ keys (apply_op op m).1 :=
      run_ops_res_ids_subset rest _ r2 hr2
    rw [heq] at hmem
    exact apply_op_res_removed op m h r hr hmem

/-- Claim C10: each of the four resolving operations (matching
response, gc on deadline expiry, local abandonment, connection-wide
broadcast) removes every entry it resolves in the same atomic step;
resolving operations aimed at an absent id are no-ops; consequently,
over any sequence of these operations, no pending entry's promise is
resolved more than once. -/
theorem pending_resolution_at_most_once (ops : List pending_op)
    (m : pending_map_type) (h : (keys m).Nodup) :
    (((run_ops ops m).2).map Prod.fst).Nodup ∧
    (∀ op, ∀ r ∈ (apply_op op m).2, r.1 ∉ keys (apply_op op m).1) ∧
    (∀ id, id ∉ keys m →
      abandon_request id m = (m, []) ∧
      ∀ s, set_response id s m = (m, [])) := by
  refine ⟨run_ops_trace_nodup ops m h,
    fun op => apply_op_res_removed op m h, fun id hid => ?_⟩
  have hfind : m.find? (fun e => e.1 == id) = none :=
    find?_eq_none_of_not_mem (by simpa [keys] using hid)
  constructor
  · simp only [abandon_request, hfind]
  · intro s
    simp only [set_response, hfind]

theorem pending_resolution_at_most_once_witness :
    (((run_ops [pending_op.run_gc 5, pending_op.abandon 2,
          pending_op.response 2 "x"]
        [(1, pending_request.mk (some 0)), (2, pending_request.mk none)]).2).map
      Prod.fst).Nodup ∧
    (1 : Nat) ∉ keys (apply_op (pending_op.abandon 1)
      [(1, pending_request.mk (some 0)), (2, pending_request.mk none)]).1 ∧
    abandon_request 5
        [(1, pending_request.mk (some 0)), (2, pending_request.mk none)] =
      ([(1, pending_request.mk (some 0)), (2, pending_request.mk none)], []) ∧
    set_response 5 "y"
        [(1, pending_request.mk (some 0)), (2, pending_request.mk none)] =
      ([(1, pending_request.mk (some 0)), (2, pending_request.mk none)], []) := by
  have h := pending_resolution_at_most_once
    [pending_op.run_gc 5, pending_op.abandon 2, pending_op.response 2 "x"]
    [(1, pending_request.mk (some 0)), (2, pending_request.mk none)] (by decide)
  exact ⟨h.1,
    h.2.1 (pending_op.abandon 1) (1, Resolution.exc ErrorKind.cancelled)
      (by decide),
    (h.2.2 5 (by decide)).1, (h.2.2 5 (by decide)).2 "y"⟩

namespace flat_map

/-! Correctness of the sorted keyed map with respect to the reference
sorted-array specification. -/

variable {α β : Type} [LinearOrder α]

theorem lower_bound_eq_ref {l : List (α × β)} (h : sorted_keys l) (k : α) :
    lower_bound l k = lower_bound_ref l k := by
  induction l with
  | nil => rfl
  | cons e rest ih =>
    have h' := List.pairwise_cons.mp h
    simp only [lower_bound, lower_bound_ref, List.countP_cons]
    by_cases hlt : e.1 < k
    · rw [if_pos hlt, if_pos (by simpa using hlt), ih h'.2]
      rfl
    · rw [if_neg hlt, if_neg (by simpa using hlt)]
      have hzero : rest.countP (fun e => decide (e.1 < k)) = 0 := by
        rw [List.countP_eq_zero]
        intro x hx
        have : e.1 < x.1 := h'.1 x hx
        simp only [decide_eq_true_eq]
        intro hxk
        exact hlt (this.trans hxk)
      simp [lower_bound_ref, hzero]

theorem upper_bound_eq_ref {l : List (α × β)} (h : sorted_keys l) (k : α) :
    upper_bound l k = upper_bound_ref l k := by
  induction l with
  | nil => rfl
  | cons e rest ih =>
    have h' := List.pairwise_cons.mp h
    simp only [upper_bound, upper_bound_ref, List.countP_cons]
    by_cases hle : e.1 ≤ k
    · rw [if_pos hle, if_pos (by simpa using hle), ih h'.2]
      rfl
    · rw [if_neg hle, if_neg (by simpa using hle)]
      have hzero : rest.countP (fun e => decide (e.1 ≤ k)) = 0 := by
        rw [List.countP_eq_zero]
        intro x hx
        have hex : e.1 < x.1 := h'.1 x hx
        simp only [decide_eq_true_eq]
        intro hxk
        exact hle (le_of_lt (lt_of_lt_of_le hex hxk))
      simp [upper_bound_ref, hzero]

theorem find_eq_some_of_mem {l : List (α × β)} (h : sorted_keys l)
    {k : α} {v : β} (hm : (k, v) ∈ l) : find l k = some (k, v) := by
  induction l with
  | nil => cases hm
  | cons e rest ih =>
    have h' := List.pairwise_cons.mp h
    rcases List.mem_cons.mp hm with heq | hm'
    · rw [← heq]
      simp only [find]
      rw [if_neg (lt_irrefl k)]
      simp
    · have hlt : e.1 < k := h'.1 (k, v) hm'
      simp only [find]
      rw [if_pos hlt]
      exact ih h'.2 hm'

theorem find_eq_none_of_absent {l : List (α × β)} {k : α}
    (hm : k ∉ l.map Prod.fst) : find l k = none := by
  induction l with
  | nil => rfl
  | cons e rest ih =>
    simp only [List.map_cons, List.mem_cons, not_or] at hm
    simp only [find]
    by_cases hlt : e.1 < k
    · rw [if_pos hlt]
      exact ih hm.2
    · rw [if_neg hlt, if_neg (fun heq => hm.1 heq.symm)]

theorem insert_mem {l : List (α × β)} {kv e : α × β}
    (he : e ∈ (insert l kv).1) : e = kv ∨ e ∈ l := by
  induction l with
  | nil =>
    simp only [insert] at he
    left
    exact List.mem_singleton.mp he
  | cons e0 rest ih =>
    simp only [insert] at he
    by_cases h1 : kv.1 < e0.1
    · rw [if_pos h1] at he
      rcases List.mem_cons.mp he with rfl | he2
      · left; rfl
      · right; exact he2
    · rw [if_neg h1] at he
      by_cases h2 : e0.1 = kv.1
      · rw [if_pos h2] at he
        right; exact he
      · rw [if_neg h2] at he
        rcases List.mem_cons.mp he with rfl | he2
        · right; exact List.mem_cons_self _ _
        · rcases ih he2 with h3 | h3
          · left; exact h3
          · right; exact List.mem_cons_of_mem _ h3

theorem insert_of_mem_keys {l : List (α × β)} (h : sorted_keys l)
    {kv : α × β} (hm : kv.1 ∈ l.map Prod.fst) : insert l kv = (l, false) := by
  induction l with
  | nil => cases hm
  | cons e rest ih =>
    have h' := List.pairwise_cons.mp h
    simp only [List.map_cons, List.mem_cons] at hm
    simp only [insert]
    by_cases h1 : kv.1 < e.1
    · exfalso
      rcases hm with heq | hmem
      · exact absurd heq (ne_of_lt h1)
      · obtain ⟨e2, he2, hk2⟩ := List.mem_map.mp hmem
        exact absurd (h1.trans (hk2 ▸ h'.1 e2 he2)) (lt_irrefl kv.1)
    · rw [if_neg h1]
      by_cases h2 : e.1 = kv.1
      · rw [if_pos h2]
      · rw [if_neg h2]
        have hmem : kv.1 ∈ rest.map Prod.fst := by
          rcases hm with heq | hmem
          · exact absurd heq.symm h2
          · exact hmem
        rw [ih h'.2 hmem]

theorem insert_sorted {l : List (α × β)} (h : sorted_keys l) (kv : α × β) :
    sorted_keys (insert l kv).1 := by
  induction l with
  | nil =>
    simp only [insert]
    exact List.pairwise_singleton _ kv
  | cons e rest ih =>
    have h' := List.pairwise_cons.mp h
    simp only [insert]
    by_cases h1 : kv.1 < e.1
    · rw [if_pos h1]
      refine List.pairwise_cons.mpr ⟨fun x hx => ?_, h⟩
      rcases List.mem_cons.mp hx with rfl | hx2
      · exact h1
      · exact h1.trans (h'.1 x hx2)
    · rw [if_neg h1]
      by_cases h2 : e.1 = kv.1
      · rw [if_pos h2]
        exact h
      · rw [if_neg h2]
        have helt : e.1 < kv.1 := lt_of_le_of_ne (le_of_not_lt h1) h2
        refine List.pairwise_cons.mpr ⟨fun x hx => ?_, ih h'.2⟩
        rcases insert_mem hx with rfl | hx2
        · exact helt
        · exact h'.1 x hx2

theorem of_list_sorted (ops : List (α × β)) : sorted_keys (of_list ops) := by
  have hstep : ∀ m : List (α × β), sorted_keys m →
      sorted_keys (ops.foldl (fun m kv => (insert m kv).1) m) := by
    induction ops with
    | nil => intro m hm; exact hm
    | cons kv rest ih => intro m hm; exact ih _ (insert_sorted hm kv)
  exact hstep [] List.Pairwise.nil

/-- Claim C9: for every sequence of insertions into the sorted keyed
map starting from empty, iteration visits keys in strictly increasing
order (so keys are unique), inserting an already-present key reports
false and leaves the map unchanged, the subscript returns the mapped
value for a present key and a default-constructed value for an absent
key, and lower_bound, upper_bound and equal_range agree with the
reference sorted-array specification. -/
theorem flat_map_insert_lookup_bounds_spec {α β : Type} [LinearOrder α]
    [Inhabited β] (ops : List (α × β)) :
    sorted_keys (of_list ops) ∧
    ((of_list ops).map Prod.fst).Nodup ∧
    (∀ kv : α × β, kv.1 ∈ (of_list ops).map Prod.fst →
      insert (of_list ops) kv = (of_list ops, false)) ∧
    (∀ k v, (k, v) ∈ of_list ops → getD (of_list ops) k = v) ∧
    (∀ k, k ∉ (of_list ops).map Prod.fst → getD (of_list ops) k = default) ∧
    (∀ k, lower_bound (of_list ops) k = lower_bound_ref (of_list ops) k) ∧
    (∀ k, upper_bound (of_list ops) k = upper_bound_ref (of_list ops) k) ∧
    (∀ k, equal_range (of_list ops) k =
      (lower_bound_ref (of_list ops) k, upper_bound_ref (of_list ops) k)) := by
  have hs := of_list_sorted ops
  refine ⟨hs, ?_, fun kv hkv => insert_of_mem_keys hs hkv,
    fun k v hm => ?_, fun k hk => ?_,
    fun k => lower_bound_eq_ref hs k, fun k => upper_bound_eq_ref hs k,
    fun k => ?_⟩
  · have := List.pairwise_map.mpr (hs.imp (fun hab => hab))
    exact this.imp (fun hab => ne_of_lt hab)
  · simp only [getD, find_eq_some_of_mem hs hm]
  · simp only [getD, find_eq_none_of_absent hk]
  · simp only [equal_range, lower_bound_eq_ref hs k, upper_bound_eq_ref hs k]

theorem flat_map_insert_lookup_bounds_spec_witness :
    sorted_keys (of_list [((3 : Int), (2 : Int)), (4, 1), (3, 3)]) ∧
    insert (of_list [((3 : Int), (2 : Int)), (4, 1), (3, 3)]) (3, 5) =
      (of_list [((3 : Int), (2 : Int)), (4, 1), (3, 3)], false) ∧
    getD (of_list [((3 : Int), (2 : Int)), (4, 1), (3, 3)]) 3 = 2 ∧
    getD (of_list [((3 : Int), (2 : Int)), (4, 1), (3, 3)]) 5 = default ∧
    lower_bound (of_list [((3 : Int), (2 : Int)), (4, 1), (3, 3)]) 4 =
      lower_bound_ref (of_list [((3 : Int), (2 : Int)), (4, 1), (3, 3)]) 4 ∧
    upper_bound (of_list [((3 : Int), (2 : Int)), (4, 1), (3, 3)]) 3 =
      upper_bound_ref (of_list [((3 : Int), (2 : Int)), (4, 1), (3, 3)]) 3 ∧
    equal_range (of_list [((3 : Int), (2 : Int)), (4, 1), (3, 3)]) 4 =
      (lower_bound_ref (of_list [((3 : Int), (2 : Int)), (4, 1), (3, 3)]) 4,
       upper_bound_ref (of_list [((3 : Int), (2 : Int)), (4, 1), (3, 3)]) 4) := by
  have h := flat_map_insert_lookup_bounds_spec
    [((3 : Int), (2 : Int)), (4, 1), (3, 3)]
  exact ⟨h.1, h.2.2.1 (3, 5) (by decide), h.2.2.2.1 3 2 (by decide),
    h.2.2.2.2.1 5 (by decide), h.2.2.2.2.2.1 4, h.2.2.2.2.2.2.1 3,
    h.2.2.2.2.2.2.2 4⟩

end flat_map

end Arpc
